import Mathlib

/-!
Verification of the bond-detection, graph-traversal and safe-mutation core of
the chemcoord library (`cartesian_coordinates/_cartesian_class_core.py` and
`internal_coordinates/_indexers.py`), shallowly embedded in Lean 4.

Atoms are identified with `Fin n`; positions are rational triples
(`Fin n → Fin 3 → ℚ`, mirroring the `x, y, z` columns), bonding radii are a
total function `Fin n → ℚ`.  Python floats are modelled by exact rationals
(reals for the trigonometric dihedral code), and Python `set`/`dict`
iteration order is rendered deterministically by ascending index, matching
the library's determinism contract.
-/

namespace Chemcoord

section Bonds

variable {n : ℕ}

/-- The quantity `D` of `_jit_give_bond_array`: squared Euclidean distance,
accumulated over the three coordinate axes. -/
def dist2 (pos : Fin n → Fin 3 → ℚ) (p q : Fin n) : ℚ :=
  ∑ h : Fin 3, (pos p h - pos q h) ^ 2

/-- Entry `bond_array[p, q]` created by `_jit_give_bond_array`:
`(B - D) >= 0` with `B = (bond_radii[p] + bond_radii[q])**2`, with the
diagonal cleared afterwards unless `self_bonding_allowed`. -/
def jit_bond_entry (pos : Fin n → Fin 3 → ℚ) (r : Fin n → ℚ)
    (sba : Bool) (p q : Fin n) : Prop :=
  0 ≤ (r p + r q) ^ 2 - dist2 pos p q ∧ (sba = true ∨ p ≠ q)

instance (pos : Fin n → Fin 3 → ℚ) (r : Fin n → ℚ) (sba : Bool) (p q : Fin n) :
    Decidable (jit_bond_entry pos r sba p q) := by
  unfold jit_bond_entry
  infer_instance

/-- The brute-force all-pairs adjacency relation: the bond test evaluated on
every pair of atoms without any spatial partitioning.  This is the spec's
reference computation for the partition-invariance property. -/
def brute_force_bonds (pos : Fin n → Fin 3 → ℚ) (r : Fin n → ℚ) (sba : Bool) :
    Fin n → Finset (Fin n) :=
  fun p => Finset.univ.filter (fun q => jit_bond_entry pos r sba p q)

/-- The values of one coordinate column sorted ascending
(`self[axis].sort_values()` in `_divide_et_impera`). -/
def axis_series (pos : Fin n → Fin 3 → ℚ) (ax : Fin 3) : List ℚ :=
  Multiset.sort (· ≤ ·) (Multiset.map (fun p => pos p ax) Finset.univ.val)

/-- `series.iloc[k]` on the sorted series, with a default for the
out-of-range positions that the real parameters never reach. -/
def nth_val (pos : Fin n → Fin 3 → ℚ) (ax : Fin 3) (k : ℕ) : ℚ :=
  (axis_series pos ax).getD k 0

/-- `int(np.ceil(x ** (1 / 3)))` for `x = len(self) / n_atoms_per_set`:
the least natural number `S` with `x ≤ S ^ 3`, found by bounded search. -/
def ceil_cube_root (x : ℚ) : ℕ :=
  ((List.range (⌈x⌉₊ + 2)).find? (fun S : ℕ => decide (x ≤ (S : ℚ) ^ 3))).getD (⌈x⌉₊ + 1)

/-- `n_sets_along_axis` of `_divide_et_impera`. -/
def n_sets_axis (n m : ℕ) : ℕ :=
  ceil_cube_root ((n : ℚ) / (m : ℚ))

/-- `int(np.ceil(a / b))` for naturals (`n_atoms_per_set_along_axis`). -/
def ceil_div (a b : ℕ) : ℕ :=
  (a + b - 1) / b

/-- `give_index` of `_divide_et_impera`: the `i`-th overlapping band along
axis `ax`.  `min_value`/`max_value` are the sorted values at positions
`i * N` and `(i + 1) * N` (falling back to the last position when the latter
is out of range, as the `except IndexError` branch does), and the band keeps
every atom whose coordinate lies in `[min_value - offset, max_value + offset]`
(`series.between` is inclusive). -/
def band (pos : Fin n → Fin 3 → ℚ) (offset : ℚ) (N : ℕ) (ax : Fin 3) (i : ℕ) :
    Finset (Fin n) :=
  Finset.univ.filter (fun q =>
    nth_val pos ax (i * N) - offset ≤ pos q ax ∧
    pos q ax ≤ nth_val pos ax (if (i + 1) * N < n then (i + 1) * N else n - 1) + offset)

/-- One cell `array_of_fragments[i, j, k]` of `_divide_et_impera`: the
intersection of one band per axis. -/
def cell (pos : Fin n → Fin 3 → ℚ) (offset : ℚ) (N : ℕ) (i j k : ℕ) :
    Finset (Fin n) :=
  band pos offset N 0 i ∩ band pos offset N 1 j ∩ band pos offset N 2 k

/-- `_divide_et_impera`: the 3-D array of overlapping cells, with
`N = ceil(n / n_sets_along_axis)` atoms per band. -/
def divide_et_impera (pos : Fin n → Fin 3 → ℚ) (m : ℕ) (offset : ℚ)
    (i j k : ℕ) : Finset (Fin n) :=
  cell pos offset (ceil_div n (n_sets_axis n m)) i j k

/-- `_update_bond_dict` restricted to one cell: the neighbours contributed to
atom `p` by evaluating `_jit_give_bond_array` on the atoms of cell `c`.
Atoms outside the cell contribute and receive nothing. -/
def update_bond_dict (pos : Fin n → Fin 3 → ℚ) (r : Fin n → ℚ) (sba : Bool)
    (c : Finset (Fin n)) (p : Fin n) : Finset (Fin n) :=
  if p ∈ c then c.filter (fun q => jit_bond_entry pos r sba p q) else ∅

/-- `get_bonds`'s `complete_calculation` core (on the positional index): the
union over all cells of `_divide_et_impera` of the per-cell bond
dictionaries.  Atoms appearing in no detected bond get an empty entry, as the
final totality loop of `complete_calculation` guarantees. -/
def get_bonds (pos : Fin n → Fin 3 → ℚ) (r : Fin n → ℚ) (sba : Bool)
    (m : ℕ) (offset : ℚ) : Fin n → Finset (Fin n) :=
  fun p =>
    (Finset.range (n_sets_axis n m) ×ˢ
      Finset.range (n_sets_axis n m) ×ˢ
      Finset.range (n_sets_axis n m)).biUnion
      (fun t => update_bond_dict pos r sba
        (divide_et_impera pos m offset t.1 t.2.1 t.2.2) p)

end Bonds

section Traversal

variable {n : ℕ}

/-- The loop state shared by `give_coordination_sphere` and `connected_to`:
`K` are the keys of `tmp_bond_dict`, `v` its values (read only at keys),
`V` the `visited` set. -/
structure BState (n : ℕ) where
  K : Finset (Fin n)
  v : Fin n → Finset (Fin n)
  V : Finset (Fin n)

/-- The body of `for i in tmp_bond_dict` for a single key `u`: skip if
visited, otherwise mark visited and write `bond_dict[j] - visited` into the
new dictionary for every `j` in the old value of `u`. -/
def proc_key (bd : Fin n → Finset (Fin n)) (vO : Fin n → Finset (Fin n))
    (acc : BState n) (u : Fin n) : BState n :=
  if u ∈ acc.V then acc
  else
    { K := acc.K ∪ vO u
      v := fun j => if j ∈ vO u then bd j \ insert u acc.V else acc.v j
      V := insert u acc.V }

/-- One iteration of the `while tmp_bond_dict ...` loop: fold the key handler
over the keys (dictionary iteration rendered in ascending index order, by
filtering `List.finRange`), starting from the empty `new_tmp_bond_dict`. -/
def bfs_round (bd : Fin n → Finset (Fin n)) (st : BState n) : BState n :=
  ((List.finRange n).filter (fun u => u ∈ st.K)).foldl
    (proc_key bd st.v) ⟨∅, fun _ => ∅, st.V⟩

/-- Up to `f` iterations of the loop, stopping as soon as `tmp_bond_dict`
becomes empty (the loop guard `while tmp_bond_dict`). -/
def bfs_iter (bd : Fin n → Finset (Fin n)) : ℕ → BState n → BState n
  | 0, st => st
  | f + 1, st => if st.K = ∅ then st else bfs_iter bd f (bfs_round bd st)

/-- The state immediately before the loop: `visited = {i} | exclude` and
`tmp_bond_dict = {j: bond_dict[j] - visited for j in bond_dict[i]}`. -/
def init_state (bd : Fin n → Finset (Fin n)) (i : Fin n)
    (excl : Finset (Fin n)) : BState n :=
  ⟨bd i, fun j => if j ∈ bd i then bd j \ insert i excl else ∅, insert i excl⟩

/-- `give_coordination_sphere(i, n_sphere, give_only_index=True)`: run the
loop (guard `(n + 1) < n_sphere`, hence at most `n_sphere - 1` rounds) and
return the key set of the final `tmp_bond_dict`. -/
def give_coordination_sphere (bd : Fin n → Finset (Fin n)) (i : Fin n)
    (n_sphere : ℕ) : Finset (Fin n) :=
  (bfs_iter bd (n_sphere - 1) (init_state bd i ∅)).K

/-- `connected_to(i, exclude=excl, give_only_index=True)` with the default
`n_sphere=float('inf')`: the loop runs until the frontier empties (the fuel
`n + 2` provably reaches that fixpoint) and `visited - exclude` is
returned. -/
def connected_to (bd : Fin n → Finset (Fin n)) (i : Fin n)
    (excl : Finset (Fin n)) : Finset (Fin n) :=
  (bfs_iter bd (n + 2) (init_state bd i excl)).V \ excl

/-- The claim's own definition of coordination spheres, for comparison:
component 1 is sphere `k`, component 2 the visited set of spheres `0..k`;
sphere 0 is `{i}` and sphere `k` collects the not-yet-visited neighbours of
sphere `k - 1`. -/
def spec_coordination_sphere (bd : Fin n → Finset (Fin n)) (i : Fin n) :
    ℕ → Finset (Fin n) × Finset (Fin n)
  | 0 => ({i}, {i})
  | k + 1 =>
    let prev := spec_coordination_sphere bd i k
    (prev.1.biUnion bd \ prev.2, prev.2 ∪ (prev.1.biUnion bd \ prev.2))

/-- Modelled from the spec: `chemcoord.utilities.set_utilities.pick` (not
among the sources) and Python's `set.pop` both take an arbitrary element of a
non-empty set; rendered deterministically as the minimum. -/
def pick (s : Finset (Fin n)) (h : s.Nonempty) : Fin n :=
  s.min' h

/-- The `while pending` loop of `fragmentate(give_only_index=True)`:
pick a pending atom, take everything `connected_to` it, remove that component
from `pending` and append it. -/
def fragmentate_aux (bd : Fin n → Finset (Fin n)) :
    ℕ → Finset (Fin n) → List (Finset (Fin n))
  | 0, _ => []
  | f + 1, pending =>
    if h : pending.Nonempty then
      connected_to bd (pick pending h) ∅ ::
        fragmentate_aux bd f (pending \ connected_to bd (pick pending h) ∅)
    else []

/-- `fragmentate(give_only_index=True)`: the loop starts from the full index
set; the fuel `n + 1` provably outlasts the loop. -/
def fragmentate (bd : Fin n → Finset (Fin n)) : List (Finset (Fin n)) :=
  fragmentate_aux bd (n + 1) Finset.univ

/-- The `while not new_atoms == set([])` loop of `_preserve_bonds`:
pop an atom of `new_atoms`, absorb everything `connected_to` it outside the
current selection, and drop absorbed atoms from `new_atoms`. -/
def preserve_loop (bd : Fin n → Finset (Fin n)) :
    ℕ → Finset (Fin n) → Finset (Fin n) → Finset (Fin n)
  | 0, inc, _ => inc
  | f + 1, inc, na =>
    if h : na.Nonempty then
      preserve_loop bd f (inc ∪ connected_to bd (pick na h) inc)
        ((na.erase (pick na h)) \ (inc ∪ connected_to bd (pick na h) inc))
    else inc

/-- `_preserve_bonds(sliced)` on the index set of the slice: seed `new_atoms`
with the out-of-selection neighbours of the selection and run the absorption
loop (the fuel provably outlasts it). -/
def preserve_bonds (bd : Fin n → Finset (Fin n)) (included : Finset (Fin n)) :
    Finset (Fin n) :=
  preserve_loop bd ((included.biUnion bd \ included).card + 1) included
    (included.biUnion bd \ included)

/-- Reachability along the bond dictionary (a path of covalent bonds). -/
def Reachable (bd : Fin n → Finset (Fin n)) : Fin n → Fin n → Prop :=
  Relation.ReflTransGen (fun a b => b ∈ bd a)

/-- One step of traversal that never enters the excluded set — exactly what
`connected_to`'s `exclude` argument forbids. -/
def StepAv (bd : Fin n → Finset (Fin n)) (excl : Finset (Fin n))
    (a b : Fin n) : Prop :=
  b ∈ bd a ∧ b ∉ excl

/-- Reachability avoiding the excluded set. -/
def ReachAv (bd : Fin n → Finset (Fin n)) (excl : Finset (Fin n)) :
    Fin n → Fin n → Prop :=
  Relation.ReflTransGen (StepAv bd excl)

/-- The invariant maintained by the `connected_to` loop state: the excluded
atoms count as visited from the start; every visited or frontier atom is
excluded or reachable from `i` avoiding the excluded set; non-excluded
visited atoms have all their neighbours visited or on the frontier; and
frontier values under-approximate the neighbour sets only by already-visited
atoms and never contain excluded atoms. -/
def Good (bd : Fin n → Finset (Fin n)) (excl : Finset (Fin n)) (i : Fin n)
    (st : BState n) : Prop :=
  excl ⊆ st.V ∧
  (∀ x ∈ st.V, x ∈ excl ∨ ReachAv bd excl i x) ∧
  (∀ x ∈ st.K, x ∈ excl ∨ ReachAv bd excl i x) ∧
  (∀ u ∈ st.V, u ∉ excl → ∀ w ∈ bd u, w ∈ st.V ∨ w ∈ st.K) ∧
  (∀ u ∈ st.K, st.v u ⊆ bd u ∧ (∀ w ∈ bd u, w ∈ st.V ∨ w ∈ st.v u) ∧
    ∀ w ∈ st.v u, w ∉ excl)

end Traversal

section SafeLoc

variable {R C Vl E Cart : Type} [DecidableEq R] [DecidableEq C]

/-- A pandas `.loc` assignment target together with its value: either the
tuple form `frame.loc[key[0], key[1]] = value` or the plain form
`frame.loc[key] = value` (a whole-row write). -/
inductive LocAssign (R C Vl : Type) where
  | cell (row : R) (col : C) (val : Vl)
  | row (row : R) (val : C → Vl)

/-- Applying one `.loc` write to a frame. -/
def loc_write (frame : R → C → Vl) : LocAssign R C Vl → R → C → Vl
  | .cell r c v => fun rr cc => if rr = r ∧ cc = c then v else frame rr cc
  | .row r v => fun rr cc => if rr = r then v cc else frame rr cc

/-- A Zmat as far as `_Safe_Loc` observes it: its `_frame` and the
`_metadata['dummy_manipulation_allowed']` flag. -/
structure ZmatState (R C Vl : Type) where
  frame : R → C → Vl
  dummy_manipulation_allowed : Bool

/-- `_Safe_Loc.__setitem__`.  The collaborators are parameters, modelled from
the spec: `give_cartesian` is the excluded coordinate resolver, which either
produces a Cartesian or fails with the degeneracy signal (`InvalidReference`);
`insert_dummy`/`remove_dummies` are the excluded in-place recovery steps of
the dummy-manipulation branch.  The result is the molecule the indexer
references after the call, paired with the raised exception (carrying its
`zmat_after_assignment` payload) if any. -/
def safe_loc_setitem (give_cartesian : (R → C → Vl) → Except E Cart)
    (insert_dummy : (R → C → Vl) → E → R → C → Vl)
    (remove_dummies : (R → C → Vl) → R → C → Vl)
    (mol : ZmatState R C Vl) (kv : LocAssign R C Vl) :
    ZmatState R C Vl × Option (E × (R → C → Vl)) :=
  if mol.dummy_manipulation_allowed then
    let f1 := loc_write mol.frame kv
    match give_cartesian f1 with
    | .ok _ => ({ mol with frame := remove_dummies f1 }, none)
    | .error e => ({ mol with frame := remove_dummies (insert_dummy f1 e) }, none)
  else
    let zmat_after_assignment := loc_write mol.frame kv
    match give_cartesian zmat_after_assignment with
    | .ok _ => ({ mol with frame := zmat_after_assignment }, none)
    | .error e => (mol, some (e, zmat_after_assignment))

end SafeLoc

noncomputable section Dihedral

/-- A 3-D position, as one row of the `x, y, z` columns. -/
abbrev Vec3 := ℝ × ℝ × ℝ

/-- Componentwise dot product (`np.sum(u * v, axis=1)`). -/
def dot3 (u v : Vec3) : ℝ :=
  u.1 * v.1 + u.2.1 * v.2.1 + u.2.2 * v.2.2

/-- `np.cross`. -/
def cross3 (u v : Vec3) : Vec3 :=
  (u.2.1 * v.2.2 - u.2.2 * v.2.1,
   u.2.2 * v.1 - u.1 * v.2.2,
   u.1 * v.2.1 - u.2.1 * v.1)

/-- `np.linalg.norm`. -/
def norm3 (u : Vec3) : ℝ :=
  Real.sqrt (dot3 u u)

/-- `v / np.linalg.norm(v)`. -/
def normalize3 (u : Vec3) : Vec3 :=
  (u.1 / norm3 u, u.2.1 / norm3 u, u.2.2 / norm3 u)

/-- The clipping of the dot product to `[-1, 1]` performed by
`dihedral_degrees` before `np.arccos`. -/
def clip1 (x : ℝ) : ℝ :=
  if 1 < x then 1 else if x < -1 then -1 else x

/-- `np.degrees`. -/
def degrees (x : ℝ) : ℝ :=
  x * 180 / Real.pi

/-- `n1` of `dihedral_degrees`: the normalized `np.cross(IB, BA)` with
`IB = b_pos - i_pos` and `BA = a_pos - b_pos`. -/
def dihedral_n1 (i b a : Vec3) : Vec3 :=
  normalize3 (cross3 (b - i) (a - b))

/-- `n2` of `dihedral_degrees`: the normalized `np.cross(BA, AD)` with
`AD = d_pos - a_pos`. -/
def dihedral_n2 (b a d : Vec3) : Vec3 :=
  normalize3 (cross3 (a - b) (d - a))

/-- `dihedral_degrees` for a single quadruple `(i, b, a, d)`:
`arccos` of the clipped normal-normal dot product, converted to degrees, and
replaced by `360 - angle` exactly when `np.sum(BA * np.cross(n1, n2)) > 0`. -/
def dihedral_degrees (i b a d : Vec3) : ℝ :=
  if 0 < dot3 (a - b) (cross3 (dihedral_n1 i b a) (dihedral_n2 b a d)) then
    360 - degrees (Real.arccos (clip1 (dot3 (dihedral_n1 i b a) (dihedral_n2 b a d))))
  else
    degrees (Real.arccos (clip1 (dot3 (dihedral_n1 i b a) (dihedral_n2 b a d))))

end Dihedral

section FrameEffect

variable {n : ℕ} {Elem : Type}

/-- The atom records of a `Cartesian` as `get_bonds` observes them: the
identifier index, the element symbols, the positions, and the
`_metadata['bond_dict']` cache entry. -/
structure CartMol (n : ℕ) (Elem : Type) where
  index : Fin n → ℤ
  atom : Fin n → Elem
  pos : Fin n → Fin 3 → ℚ
  bond_dict_cache : Option (Finset (ℤ × ℤ))

/-- `complete_calculation` inside `get_bonds`: save the index, renumber to
`range(len(self))`, compute the bond dictionary on positions and radii
(the per-element `add_data` lookup with the `modified_properties` override),
restore the index and rename the dictionary back through it.  The bond
dictionary is returned as the set of directed bonded pairs of labels. -/
def complete_calculation (radius_of : Elem → ℚ) (modified : Fin n → Option ℚ)
    (sba : Bool) (m : ℕ) (offset : ℚ) (mol : CartMol n Elem) :
    Finset (ℤ × ℤ) × CartMol n Elem :=
  let old_index := mol.index
  let renumbered : CartMol n Elem := { mol with index := fun p => (p : ℤ) }
  let bond_radii : Fin n → ℚ := fun p => (modified p).getD (radius_of (renumbered.atom p))
  let bonds := get_bonds renumbered.pos bond_radii sba m offset
  (Finset.univ.biUnion (fun p => (bonds p).image fun q => (old_index p, old_index q)),
    { renumbered with index := old_index })

/-- `get_bonds` as a method: consult the cache when `use_lookup`, otherwise
run `complete_calculation`, and store into the cache when `set_lookup`. -/
def get_bonds_with_metadata (radius_of : Elem → ℚ) (modified : Fin n → Option ℚ)
    (sba : Bool) (m : ℕ) (offset : ℚ) (use_lookup set_lookup : Bool)
    (mol : CartMol n Elem) : Finset (ℤ × ℤ) × CartMol n Elem :=
  let out :=
    if use_lookup then
      match mol.bond_dict_cache with
      | some cached => (cached, mol)
      | none => complete_calculation radius_of modified sba m offset mol
    else complete_calculation radius_of modified sba m offset mol
  (out.1, if set_lookup then { out.2 with bond_dict_cache := some out.1 } else out.2)

end FrameEffect

section BondLemmas

variable {n : ℕ} {pos : Fin n → Fin 3 → ℚ} {r : Fin n → ℚ} {sba : Bool}
variable {m : ℕ} {offset : ℚ}

lemma ceil_cube_root_pos {x : ℚ} (hx : 0 < x) : 0 < ceil_cube_root x := by
  unfold ceil_cube_root
  cases hfind : (List.range (⌈x⌉₊ + 2)).find? (fun S : ℕ => decide (x ≤ (S : ℚ) ^ 3)) with
  | none => simp
  | some S =>
    have hS := List.find?_some hfind
    simp only [decide_eq_true_eq] at hS
    rcases Nat.eq_zero_or_pos S with h0 | h1
    · subst h0; norm_num at hS; linarith
    · simpa using h1

lemma n_sets_axis_pos (hn : 0 < n) (hm : 0 < m) : 0 < n_sets_axis n m := by
  apply ceil_cube_root_pos
  have h1 : (0 : ℚ) < (n : ℚ) := by exact_mod_cast hn
  have h2 : (0 : ℚ) < (m : ℚ) := by exact_mod_cast hm
  positivity

lemma ceil_div_pos {S : ℕ} (hn : 0 < n) (hS : 0 < S) : 0 < ceil_div n S := by
  unfold ceil_div
  exact Nat.div_pos (by omega) hS

lemma le_ceil_div_mul (n S : ℕ) (hS : 0 < S) : n ≤ ceil_div n S * S := by
  unfold ceil_div
  rw [mul_comm]
  have h := Nat.div_add_mod (n + S - 1) S
  have h2 : (n + S - 1) % S < S := Nat.mod_lt _ hS
  generalize hgen : S * ((n + S - 1) / S) = t at h ⊢
  generalize hgen2 : (n + S - 1) % S = rr at h h2
  omega

lemma axis_series_length (pos : Fin n → Fin 3 → ℚ) (ax : Fin 3) :
    (axis_series pos ax).length = n := by
  unfold axis_series
  rw [Multiset.length_sort, Multiset.card_map]
  simp [Finset.card_univ]

lemma axis_series_sorted (pos : Fin n → Fin 3 → ℚ) (ax : Fin 3) :
    (axis_series pos ax).Sorted (· ≤ ·) :=
  Multiset.sort_sorted _ _

lemma getD_of_lt (l : List ℚ) (k : ℕ) (h : k < l.length) :
    l.getD k 0 = l.get ⟨k, h⟩ := by
  simp [List.getD_eq_getElem?_getD, List.getElem?_eq_getElem h, List.get_eq_getElem]

lemma exists_rank (pos : Fin n → Fin 3 → ℚ) (p : Fin n) (ax : Fin 3) :
    ∃ k, k < n ∧ nth_val pos ax k = pos p ax := by
  have hmem : pos p ax ∈ axis_series pos ax := by
    unfold axis_series
    rw [Multiset.mem_sort]
    exact Multiset.mem_map.mpr ⟨p, Finset.mem_univ_val _, rfl⟩
  obtain ⟨k, hget⟩ := List.mem_iff_get.mp hmem
  have hk : (k : ℕ) < n :=
    lt_of_lt_of_le k.2 (le_of_eq (axis_series_length pos ax))
  refine ⟨k, hk, ?_⟩
  unfold nth_val
  rw [getD_of_lt _ _ (lt_of_lt_of_le hk (le_of_eq (axis_series_length pos ax).symm))]
  simpa using hget

lemma nth_val_mono (pos : Fin n → Fin 3 → ℚ) {k l : ℕ} (hkl : k ≤ l)
    (hl : l < n) (ax : Fin 3) :
    nth_val pos ax k ≤ nth_val pos ax l := by
  have hlen : l < (axis_series pos ax).length := by rw [axis_series_length]; exact hl
  have hklen : k < (axis_series pos ax).length := lt_of_le_of_lt hkl hlen
  unfold nth_val
  rw [getD_of_lt _ _ hklen, getD_of_lt _ _ hlen]
  exact (axis_series_sorted pos ax).rel_get_of_le (by exact hkl)

lemma exists_band {S N : ℕ} (hoffpos : 0 ≤ offset) (hN : 0 < N)
    (hNS : n ≤ N * S) (p : Fin n) (ax : Fin 3) :
    ∃ i, i < S ∧ ∀ q, |pos q ax - pos p ax| ≤ offset →
      q ∈ band pos offset N ax i := by
  obtain ⟨k, hk, hval⟩ := exists_rank pos p ax
  refine ⟨k / N, ?_, ?_⟩
  · rw [Nat.div_lt_iff_lt_mul hN]
    calc k < n := hk
    _ ≤ N * S := hNS
    _ = S * N := mul_comm _ _
  · intro q hq
    have hlow : nth_val pos ax (k / N * N) ≤ pos p ax := by
      rw [← hval]
      exact nth_val_mono pos (Nat.div_mul_le_self k N) hk ax
    have hkj : k ≤ (if (k / N + 1) * N < n then (k / N + 1) * N else n - 1) ∧
        (if (k / N + 1) * N < n then (k / N + 1) * N else n - 1) < n := by
      have h1 := Nat.div_add_mod k N
      have h2 := Nat.mod_lt k hN
      split
      · constructor
        · rw [add_mul, one_mul, mul_comm]
          generalize hgen : N * (k / N) = t at h1 ⊢
          generalize hgen2 : k % N = rr at h1 h2
          omega
        · assumption
      · omega
    have hhigh : pos p ax ≤ nth_val pos ax
        (if (k / N + 1) * N < n then (k / N + 1) * N else n - 1) := by
      rw [← hval]
      exact nth_val_mono pos hkj.1 hkj.2 ax
    rw [abs_le] at hq
    unfold band
    rw [Finset.mem_filter]
    exact ⟨Finset.mem_univ _, by linarith [hq.1, hq.2], by linarith [hq.1, hq.2]⟩

lemma dist2_comm (pos : Fin n → Fin 3 → ℚ) (p q : Fin n) :
    dist2 pos p q = dist2 pos q p := by
  unfold dist2
  exact Finset.sum_congr rfl (fun h _ => by ring)

lemma jit_bond_entry_symm {p q : Fin n} :
    jit_bond_entry pos r sba p q ↔ jit_bond_entry pos r sba q p := by
  unfold jit_bond_entry
  rw [dist2_comm, add_comm (r p)]
  constructor <;> rintro ⟨h1, h2⟩ <;> exact ⟨h1, by tauto⟩

lemma bond_axis_bound {p q : Fin n} (hrs : 0 ≤ r p + r q)
    (htest : 0 ≤ (r p + r q) ^ 2 - dist2 pos p q) (ax : Fin 3) :
    |pos p ax - pos q ax| ≤ r p + r q := by
  have hle : (pos p ax - pos q ax) ^ 2 ≤ dist2 pos p q := by
    unfold dist2
    exact Finset.single_le_sum
      (fun (h : Fin 3) (_ : h ∈ Finset.univ) => sq_nonneg (pos p h - pos q h))
      (Finset.mem_univ ax)
  rw [abs_le]
  constructor <;>
    nlinarith [sq_nonneg (pos p ax - pos q ax + (r p + r q)),
      sq_nonneg (pos p ax - pos q ax - (r p + r q))]

lemma mem_if_empty {α : Type} [DecidableEq α] {c : Prop} [Decidable c]
    {s : Finset α} {x : α} : (x ∈ if c then s else ∅) ↔ c ∧ x ∈ s := by
  split <;> simp [*]

lemma mem_get_bonds_iff {p x : Fin n} :
    x ∈ get_bonds pos r sba m offset p ↔
      ∃ i j k : ℕ, i < n_sets_axis n m ∧ j < n_sets_axis n m ∧
        k < n_sets_axis n m ∧
        p ∈ cell pos offset (ceil_div n (n_sets_axis n m)) i j k ∧
        x ∈ cell pos offset (ceil_div n (n_sets_axis n m)) i j k ∧
        jit_bond_entry pos r sba p x := by
  unfold get_bonds divide_et_impera update_bond_dict
  simp only [Finset.mem_biUnion, Finset.mem_product, Finset.mem_range, mem_if_empty,
    Finset.mem_filter]
  constructor
  · rintro ⟨⟨i, j, k⟩, ⟨hi, hj, hk⟩, hp, hx, he⟩
    exact ⟨i, j, k, hi, hj, hk, hp, hx, he⟩
  · rintro ⟨i, j, k, hi, hj, hk, hp, hx, he⟩
    exact ⟨⟨i, j, k⟩, ⟨hi, hj, hk⟩, hp, hx, he⟩

lemma mem_cell_iff {N i j k : ℕ} {p : Fin n} :
    p ∈ cell pos offset N i j k ↔
      p ∈ band pos offset N 0 i ∧ p ∈ band pos offset N 1 j ∧
        p ∈ band pos offset N 2 k := by
  unfold cell
  simp [Finset.mem_inter, and_assoc]

lemma get_bonds_eq_brute_core (hn : 0 < n) (hm : 0 < m)
    (hr : ∀ a, 0 ≤ r a) (hoff : ∀ a, 2 * r a < offset) :
    get_bonds pos r sba m offset = brute_force_bonds pos r sba := by
  have hS : 0 < n_sets_axis n m := n_sets_axis_pos hn hm
  have hN : 0 < ceil_div n (n_sets_axis n m) := ceil_div_pos hn hS
  have hNS : n ≤ ceil_div n (n_sets_axis n m) * n_sets_axis n m :=
    le_ceil_div_mul n _ hS
  have p0 : Fin n := ⟨0, hn⟩
  have hoffpos : 0 ≤ offset := by
    have h1 := hoff p0
    have h2 := hr p0
    linarith
  funext p
  ext x
  rw [mem_get_bonds_iff]
  unfold brute_force_bonds
  rw [Finset.mem_filter]
  constructor
  · rintro ⟨i, j, k, _, _, _, _, _, he⟩
    exact ⟨Finset.mem_univ x, he⟩
  · rintro ⟨-, he⟩
    have hsum : r p + r x ≤ offset := by
      have h1 := hoff p
      have h2 := hoff x
      have h3 := hr p
      have h4 := hr x
      linarith
    have habs : ∀ ax, |pos x ax - pos p ax| ≤ offset := by
      intro ax
      have h1 : |pos p ax - pos x ax| ≤ r p + r x :=
        bond_axis_bound (by have := hr p; have := hr x; linarith) he.1 ax
      rw [abs_sub_comm] at h1
      linarith
    have hself : ∀ ax : Fin 3, |pos p ax - pos p ax| ≤ offset := by
      intro ax
      simp [hoffpos]
    obtain ⟨i, hi, hbi⟩ := exists_band hoffpos hN hNS p 0
    obtain ⟨j, hj, hbj⟩ := exists_band hoffpos hN hNS p 1
    obtain ⟨k, hk, hbk⟩ := exists_band hoffpos hN hNS p 2
    refine ⟨i, j, k, hi, hj, hk, ?_, ?_, he⟩
    · exact mem_cell_iff.mpr ⟨hbi p (hself 0), hbj p (hself 1), hbk p (hself 2)⟩
    · exact mem_cell_iff.mpr ⟨hbi x (habs 0), hbj x (habs 1), hbk x (habs 2)⟩

end BondLemmas

section TraversalLemmas

variable {n : ℕ}

lemma proc_key_pos (bd vO : Fin n → Finset (Fin n)) {acc : BState n}
    {u : Fin n} (h : u ∈ acc.V) : proc_key bd vO acc u = acc := by
  unfold proc_key
  rw [if_pos h]

lemma proc_key_neg (bd vO : Fin n → Finset (Fin n)) {acc : BState n}
    {u : Fin n} (h : u ∉ acc.V) :
    proc_key bd vO acc u =
      ⟨acc.K ∪ vO u,
       fun j => if j ∈ vO u then bd j \ insert u acc.V else acc.v j,
       insert u acc.V⟩ := by
  unfold proc_key
  rw [if_neg h]

lemma foldl_proc_V (bd vO : Fin n → Finset (Fin n)) (L : List (Fin n))
    (a : BState n) :
    (L.foldl (proc_key bd vO) a).V = a.V ∪ L.toFinset := by
  induction L generalizing a with
  | nil => simp
  | cons u L ih =>
    rw [List.foldl_cons]
    by_cases hu : u ∈ a.V
    · rw [proc_key_pos bd vO hu, ih]
      ext x
      simp only [Finset.mem_union, List.toFinset_cons, Finset.mem_insert]
      constructor
      · tauto
      · rintro (h | h | h)
        · tauto
        · subst h; tauto
        · tauto
    · rw [proc_key_neg bd vO hu, ih]
      ext x
      simp only [Finset.mem_union, List.toFinset_cons, Finset.mem_insert]
      tauto

lemma foldl_proc_K (bd vO : Fin n → Finset (Fin n)) (L : List (Fin n))
    (hnd : L.Nodup) (a : BState n) :
    (L.foldl (proc_key bd vO) a).K =
      a.K ∪ (L.toFinset \ a.V).biUnion vO := by
  induction L generalizing a with
  | nil => simp
  | cons u L ih =>
    obtain ⟨hu_notin, hnd2⟩ := List.nodup_cons.mp hnd
    rw [List.foldl_cons]
    by_cases hu : u ∈ a.V
    · have hset : (u :: L).toFinset \ a.V = L.toFinset \ a.V := by
        ext x
        simp only [List.toFinset_cons, Finset.mem_sdiff, Finset.mem_insert]
        constructor
        · rintro ⟨h | h, hv⟩
          · exact absurd (h ▸ hu) hv
          · exact ⟨h, hv⟩
        · rintro ⟨h, hv⟩
          exact ⟨Or.inr h, hv⟩
      rw [proc_key_pos bd vO hu, ih hnd2, hset]
    · rw [proc_key_neg bd vO hu, ih hnd2]
      ext x
      simp only [Finset.mem_union, Finset.mem_biUnion, Finset.mem_sdiff,
        List.toFinset_cons, Finset.mem_insert]
      constructor
      · rintro ((h | h) | ⟨y, ⟨hyL, hyv⟩, hyx⟩)
        · tauto
        · exact Or.inr ⟨u, ⟨Or.inl rfl, hu⟩, h⟩
        · refine Or.inr ⟨y, ⟨Or.inr hyL, fun hy => hyv ?_⟩, hyx⟩
          exact Or.inr hy
      · rintro (h | ⟨y, ⟨hy | hyL, hyv⟩, hyx⟩)
        · tauto
        · subst hy
          exact Or.inl (Or.inr hyx)
        · refine Or.inr ⟨y, ⟨hyL, ?_⟩, hyx⟩
          rintro (hh | hh)
          · subst hh; exact hu_notin (List.mem_toFinset.mp hyL)
          · exact hyv hh

lemma foldl_proc_v (bd vO : Fin n → Finset (Fin n)) (L : List (Fin n))
    (a : BState n) (j : Fin n) :
    (L.foldl (proc_key bd vO) a).v j = a.v j ∨
      ∃ W : Finset (Fin n), a.V ⊆ W ∧ W ⊆ a.V ∪ L.toFinset ∧
        (L.foldl (proc_key bd vO) a).v j = bd j \ W := by
  induction L generalizing a with
  | nil => exact Or.inl rfl
  | cons u L ih =>
    rw [List.foldl_cons]
    by_cases hu : u ∈ a.V
    · rw [proc_key_pos bd vO hu]
      rcases ih a with h | ⟨W, hW1, hW2, hW3⟩
      · exact Or.inl h
      · refine Or.inr ⟨W, hW1, ?_, hW3⟩
        intro x hx
        rcases Finset.mem_union.mp (hW2 hx) with h | h
        · exact Finset.mem_union_left _ h
        · exact Finset.mem_union_right _ (by simp [List.mem_toFinset.mp h])
    · rw [proc_key_neg bd vO hu]
      set a1 : BState n :=
        ⟨a.K ∪ vO u,
         fun j => if j ∈ vO u then bd j \ insert u a.V else a.v j,
         insert u a.V⟩ with ha1
      have hbound : ∀ W : Finset (Fin n), W ⊆ a1.V ∪ L.toFinset →
          W ⊆ a.V ∪ (u :: L).toFinset := by
        intro W hW x hx
        have hx2 := hW hx
        rw [ha1] at hx2
        rcases Finset.mem_union.mp hx2 with h | h
        · rcases Finset.mem_insert.mp h with h | h
          · exact Finset.mem_union_right _ (by simp [h])
          · exact Finset.mem_union_left _ h
        · exact Finset.mem_union_right _ (by simp [List.mem_toFinset.mp h])
      have hVsub : a.V ⊆ a1.V := by rw [ha1]; exact Finset.subset_insert _ _
      rcases ih a1 with h | ⟨W, hW1, hW2, hW3⟩
      · rw [h, ha1]
        by_cases hj : j ∈ vO u
        · refine Or.inr ⟨insert u a.V, Finset.subset_insert _ _, ?_, by simp [hj]⟩
          exact hbound _ (by rw [ha1]; exact Finset.subset_union_left)
        · simp [hj]
      · exact Or.inr ⟨W, hVsub.trans hW1, hbound W hW2, hW3⟩

lemma foldl_proc_v_written (bd vO : Fin n → Finset (Fin n)) (L : List (Fin n))
    (hnd : L.Nodup) (a : BState n) (j : Fin n)
    (hj : ∃ u ∈ L, u ∉ a.V ∧ j ∈ vO u) :
    ∃ W : Finset (Fin n), a.V ⊆ W ∧ W ⊆ a.V ∪ L.toFinset ∧
      (L.foldl (proc_key bd vO) a).v j = bd j \ W := by
  induction L generalizing a with
  | nil => simp at hj
  | cons u L ih =>
    obtain ⟨hu_notin, hnd2⟩ := List.nodup_cons.mp hnd
    rw [List.foldl_cons]
    by_cases hu : u ∈ a.V
    · rw [proc_key_pos bd vO hu]
      obtain ⟨y, hyL, hyv, hyj⟩ := hj
      have hyL2 : y ∈ L := by
        rcases List.mem_cons.mp hyL with h | h
        · subst h; exact absurd hu hyv
        · exact h
      obtain ⟨W, hW1, hW2, hW3⟩ := ih hnd2 a ⟨y, hyL2, hyv, hyj⟩
      refine ⟨W, hW1, ?_, hW3⟩
      intro x hx
      rcases Finset.mem_union.mp (hW2 hx) with h | h
      · exact Finset.mem_union_left _ h
      · exact Finset.mem_union_right _ (by simp [List.mem_toFinset.mp h])
    · rw [proc_key_neg bd vO hu]
      set a1 : BState n :=
        ⟨a.K ∪ vO u,
         fun j => if j ∈ vO u then bd j \ insert u a.V else a.v j,
         insert u a.V⟩ with ha1
      have hbound : ∀ W : Finset (Fin n), W ⊆ a1.V ∪ L.toFinset →
          W ⊆ a.V ∪ (u :: L).toFinset := by
        intro W hW x hx
        have hx2 := hW hx
        rw [ha1] at hx2
        rcases Finset.mem_union.mp hx2 with h | h
        · rcases Finset.mem_insert.mp h with h | h
          · exact Finset.mem_union_right _ (by simp [h])
          · exact Finset.mem_union_left _ h
        · exact Finset.mem_union_right _ (by simp [List.mem_toFinset.mp h])
      have hVsub : a.V ⊆ a1.V := by rw [ha1]; exact Finset.subset_insert _ _
      obtain ⟨y, hyL, hyv, hyj⟩ := hj
      by_cases hyu : y ∈ L
      · have hyv1 : y ∉ a1.V := by
          rw [ha1]
          simp only [Finset.mem_insert]
          rintro (h | h)
          · subst h; exact hu_notin hyu
          · exact hyv h
        obtain ⟨W, hW1, hW2, hW3⟩ := ih hnd2 a1 ⟨y, hyu, hyv1, hyj⟩
        exact ⟨W, hVsub.trans hW1, hbound W hW2, hW3⟩
      · have hy_eq : y = u := by
          rcases List.mem_cons.mp hyL with h | h
          · exact h
          · exact absurd h hyu
        subst hy_eq
        rcases foldl_proc_v bd vO L a1 j with h | ⟨W, hW1, hW2, hW3⟩
        · refine ⟨insert y a.V, Finset.subset_insert _ _, ?_, ?_⟩
          · exact hbound _ (by rw [ha1]; exact Finset.subset_union_left)
          · rw [h, ha1]
            simp [hyj]
        · exact ⟨W, hVsub.trans hW1, hbound W hW2, hW3⟩

lemma key_list_nodup (s : Finset (Fin n)) :
    ((List.finRange n).filter (fun u => u ∈ s)).Nodup :=
  (List.nodup_finRange n).filter _

lemma key_list_toFinset (s : Finset (Fin n)) :
    ((List.finRange n).filter (fun u => u ∈ s)).toFinset = s := by
  ext x
  simp [List.mem_filter, List.mem_finRange]

lemma key_list_mem (s : Finset (Fin n)) (u : Fin n) (hu : u ∈ s) :
    u ∈ (List.finRange n).filter (fun u => u ∈ s) := by
  rw [List.mem_filter]
  simp [List.mem_finRange, hu]

lemma round_V (bd : Fin n → Finset (Fin n)) (st : BState n) :
    (bfs_round bd st).V = st.V ∪ st.K := by
  unfold bfs_round
  rw [foldl_proc_V]
  simp [key_list_toFinset]

lemma round_K (bd : Fin n → Finset (Fin n)) (st : BState n) :
    (bfs_round bd st).K = (st.K \ st.V).biUnion st.v := by
  unfold bfs_round
  rw [foldl_proc_K _ _ _ (key_list_nodup st.K)]
  simp [key_list_toFinset]

lemma round_v_written (bd : Fin n → Finset (Fin n)) (st : BState n) (j : Fin n)
    (hj : j ∈ (bfs_round bd st).K) :
    ∃ W : Finset (Fin n), st.V ⊆ W ∧ W ⊆ st.V ∪ st.K ∧
      (bfs_round bd st).v j = bd j \ W := by
  rw [round_K] at hj
  obtain ⟨u, hu, hju⟩ := Finset.mem_biUnion.mp hj
  rw [Finset.mem_sdiff] at hu
  have h := foldl_proc_v_written bd st.v
    ((List.finRange n).filter (fun u => u ∈ st.K))
    (key_list_nodup st.K) ⟨∅, fun _ => ∅, st.V⟩ j
    ⟨u, key_list_mem st.K u hu.1, hu.2, hju⟩
  simpa [bfs_round, key_list_toFinset] using h

end TraversalLemmas

section IterLemmas

variable {n : ℕ}

lemma iter_of_K_empty (bd : Fin n → Finset (Fin n)) (f : ℕ) (st : BState n)
    (h : st.K = ∅) : bfs_iter bd f st = st := by
  cases f <;> simp [bfs_iter, h]

lemma iter_V_mono (bd : Fin n → Finset (Fin n)) (f : ℕ) (st : BState n) :
    st.V ⊆ (bfs_iter bd f st).V := by
  induction f generalizing st with
  | zero => simp [bfs_iter]
  | succ f ih =>
    simp only [bfs_iter]
    by_cases h : st.K = ∅
    · rw [if_pos h]
    · rw [if_neg h]
      refine Finset.Subset.trans ?_ (ih (bfs_round bd st))
      rw [round_V]
      exact Finset.subset_union_left

lemma good_round {bd : Fin n → Finset (Fin n)} {excl : Finset (Fin n)}
    {i : Fin n} {st : BState n} (hG : Good bd excl i st) :
    Good bd excl i (bfs_round bd st) := by
  obtain ⟨g1, g2, g3, g4, g5⟩ := hG
  have hV := round_V bd st
  have hK := round_K bd st
  refine ⟨?_, ?_, ?_, ?_, ?_⟩
  · rw [hV]
    exact g1.trans Finset.subset_union_left
  · intro x hx
    rw [hV] at hx
    rcases Finset.mem_union.mp hx with h | h
    · exact g2 x h
    · exact g3 x h
  · intro x hx
    rw [hK] at hx
    obtain ⟨u, hu, hxu⟩ := Finset.mem_biUnion.mp hx
    rw [Finset.mem_sdiff] at hu
    have hue : u ∉ excl := fun h => hu.2 (g1 h)
    rcases g3 u hu.1 with h | h
    · exact absurd h hue
    · obtain ⟨ha, hb, hc⟩ := g5 u hu.1
      exact Or.inr (Relation.ReflTransGen.tail h ⟨ha hxu, hc x hxu⟩)
  · intro u huV hune w hw
    rw [hV] at huV
    rcases Finset.mem_union.mp huV with h | h
    · rcases g4 u h hune w hw with h2 | h2
      · exact Or.inl (by rw [hV]; exact Finset.mem_union_left _ h2)
      · exact Or.inl (by rw [hV]; exact Finset.mem_union_right _ h2)
    · by_cases huV2 : u ∈ st.V
      · rcases g4 u huV2 hune w hw with h2 | h2
        · exact Or.inl (by rw [hV]; exact Finset.mem_union_left _ h2)
        · exact Or.inl (by rw [hV]; exact Finset.mem_union_right _ h2)
      · obtain ⟨ha, hb, hc⟩ := g5 u h
        rcases hb w hw with h2 | h2
        · exact Or.inl (by rw [hV]; exact Finset.mem_union_left _ h2)
        · refine Or.inr ?_
          rw [hK]
          exact Finset.mem_biUnion.mpr ⟨u, Finset.mem_sdiff.mpr ⟨h, huV2⟩, h2⟩
  · intro u hu
    obtain ⟨W, hW1, hW2, hW3⟩ := round_v_written bd st u hu
    rw [hW3]
    refine ⟨Finset.sdiff_subset, ?_, ?_⟩
    · intro w hw
      by_cases hwW : w ∈ W
      · exact Or.inl (by rw [hV]; exact hW2 hwW)
      · exact Or.inr (Finset.mem_sdiff.mpr ⟨hw, hwW⟩)
    · intro w hw
      rw [Finset.mem_sdiff] at hw
      exact fun hwe => hw.2 (hW1 (g1 hwe))

lemma good_iter {bd : Fin n → Finset (Fin n)} {excl : Finset (Fin n)}
    {i : Fin n} (f : ℕ) {st : BState n} (hG : Good bd excl i st) :
    Good bd excl i (bfs_iter bd f st) := by
  induction f generalizing st with
  | zero => exact hG
  | succ f ih =>
    simp only [bfs_iter]
    by_cases h : st.K = ∅
    · rw [if_pos h]; exact hG
    · rw [if_neg h]; exact ih (good_round hG)

lemma iter_K_empty (bd : Fin n → Finset (Fin n)) (f : ℕ) (st : BState n)
    (hf : n + 2 ≤ f + st.V.card) : (bfs_iter bd f st).K = ∅ := by
  induction f generalizing st with
  | zero =>
    exfalso
    have hcard : st.V.card ≤ n := by
      have h := Finset.card_le_univ st.V
      simpa [Fintype.card_fin] using h
    omega
  | succ f ih =>
    simp only [bfs_iter]
    by_cases h : st.K = ∅
    · rw [if_pos h]; exact h
    · rw [if_neg h]
      by_cases hsub : st.K ⊆ st.V
      · have hK2 : (bfs_round bd st).K = ∅ := by
          rw [round_K, Finset.sdiff_eq_empty_iff_subset.mpr hsub]
          exact Finset.biUnion_empty
        rw [iter_of_K_empty bd f _ hK2]
        exact hK2
      · have hlt : st.V.card < (bfs_round bd st).V.card := by
          rw [round_V]
          apply Finset.card_lt_card
          obtain ⟨u, huK, huV⟩ := Finset.not_subset.mp hsub
        
          exact (Finset.ssubset_iff_of_subset Finset.subset_union_left).mpr
            ⟨u, Finset.mem_union_right _ huK, huV⟩
        apply ih
        omega

lemma good_init (bd : Fin n → Finset (Fin n)) (excl : Finset (Fin n))
    (i : Fin n) (hi : i ∉ excl) : Good bd excl i (init_state bd i excl) := by
  unfold Good init_state
  refine ⟨?_, ?_, ?_, ?_, ?_⟩
  · exact Finset.subset_insert _ _
  · intro x hx
    rcases Finset.mem_insert.mp hx with h | h
    · subst h; exact Or.inr Relation.ReflTransGen.refl
    · exact Or.inl h
  · intro x hx
    by_cases hxe : x ∈ excl
    · exact Or.inl hxe
    · exact Or.inr (Relation.ReflTransGen.single ⟨hx, hxe⟩)
  · intro u hu hune w hw
    rcases Finset.mem_insert.mp hu with h | h
    · subst h; exact Or.inr hw
    · exact absurd h hune
  · intro u hu
    simp only at hu ⊢
    rw [if_pos hu]
    refine ⟨Finset.sdiff_subset, ?_, ?_⟩
    · intro w hw
      by_cases hwv : w ∈ insert i excl
      · exact Or.inl hwv
      · exact Or.inr (Finset.mem_sdiff.mpr ⟨hw, hwv⟩)
    · intro w hw
      rw [Finset.mem_sdiff] at hw
      exact fun he => hw.2 (Finset.mem_insert_of_mem he)

lemma connected_to_iff (bd : Fin n → Finset (Fin n)) (i : Fin n)
    (excl : Finset (Fin n)) (hi : i ∉ excl) (j : Fin n) :
    j ∈ connected_to bd i excl ↔ ReachAv bd excl i j := by
  have hG0 := good_init bd excl i hi
  have hGf := good_iter (n + 2) hG0
  have hKf : (bfs_iter bd (n + 2) (init_state bd i excl)).K = ∅ :=
    iter_K_empty bd (n + 2) _ (Nat.le_add_right _ _)
  constructor
  · intro hj
    rw [connected_to, Finset.mem_sdiff] at hj
    obtain ⟨g1, g2, g3, g4, g5⟩ := hGf
    rcases g2 j hj.1 with h | h
    · exact absurd h hj.2
    · exact h
  · intro hr
    have hmain : j ∈ (bfs_iter bd (n + 2) (init_state bd i excl)).V ∧
        j ∉ excl := by
      induction hr with
      | refl =>
        refine ⟨iter_V_mono bd (n + 2) _ ?_, hi⟩
        exact Finset.mem_insert_self i excl
      | tail hab hstep ih =>
        obtain ⟨g1, g2, g3, g4, g5⟩ := hGf
        obtain ⟨hbV, hbe⟩ := ih
        rcases g4 _ hbV hbe _ hstep.1 with h | h
        · exact ⟨h, hstep.2⟩
        · rw [hKf] at h
          exact absurd h (Finset.not_mem_empty _)
    rw [connected_to, Finset.mem_sdiff]
    exact hmain

lemma connected_to_self (bd : Fin n → Finset (Fin n)) (i : Fin n)
    (excl : Finset (Fin n)) (hi : i ∉ excl) :
    i ∈ connected_to bd i excl :=
  (connected_to_iff bd i excl hi i).mpr Relation.ReflTransGen.refl

lemma reachav_empty_iff {bd : Fin n → Finset (Fin n)} {i j : Fin n} :
    ReachAv bd (∅ : Finset (Fin n)) i j ↔ Reachable bd i j := by
  constructor <;> intro h
  · exact Relation.ReflTransGen.mono (fun a b hab => hab.1) h
  · exact Relation.ReflTransGen.mono
      (fun a b hab => ⟨hab, Finset.not_mem_empty b⟩) h

lemma connected_to_empty_iff (bd : Fin n → Finset (Fin n)) (i j : Fin n) :
    j ∈ connected_to bd i ∅ ↔ Reachable bd i j := by
  rw [connected_to_iff bd i ∅ (Finset.not_mem_empty i) j]
  exact reachav_empty_iff

end IterLemmas

section SphereFragLemmas

variable {n : ℕ}

lemma pick_mem (s : Finset (Fin n)) (h : s.Nonempty) : pick s h ∈ s :=
  Finset.min'_mem s h

lemma coord_sphere_zero (bd : Fin n → Finset (Fin n)) (i : Fin n) :
    give_coordination_sphere bd i 0 = bd i := rfl

lemma coord_sphere_one (bd : Fin n → Finset (Fin n)) (i : Fin n) :
    give_coordination_sphere bd i 1 = bd i := rfl

lemma coord_sphere_two (bd : Fin n → Finset (Fin n)) (i : Fin n) :
    give_coordination_sphere bd i 2 =
      (bd i \ {i}).biUnion (fun u => bd u \ {i}) := by
  unfold give_coordination_sphere
  simp only [bfs_iter]
  by_cases h : (init_state bd i ∅).K = ∅
  · rw [if_pos h]
    have hbi : bd i = ∅ := h
    rw [hbi]
    simp [init_state, hbi]
  · rw [if_neg h]
    rw [round_K]
    ext x
    simp only [init_state, Finset.mem_biUnion, Finset.mem_sdiff,
      Finset.mem_singleton, Finset.mem_insert,
      Finset.not_mem_empty, or_false]
    constructor
    · rintro ⟨u, ⟨huK, huV⟩, hx⟩
      rw [if_pos huK] at hx
      simp only [Finset.mem_sdiff, Finset.mem_insert, Finset.not_mem_empty,
        or_false] at hx
      exact ⟨u, ⟨huK, huV⟩, hx⟩
    · rintro ⟨u, ⟨huK, huV⟩, hx⟩
      refine ⟨u, ⟨huK, huV⟩, ?_⟩
      rw [if_pos huK]
      simp only [Finset.mem_sdiff, Finset.mem_insert, Finset.not_mem_empty,
        or_false]
      exact hx

lemma reachable_symm {bd : Fin n → Finset (Fin n)}
    (hsym : ∀ p q, q ∈ bd p ↔ p ∈ bd q) {a b : Fin n}
    (h : Reachable bd a b) : Reachable bd b a := by
  induction h with
  | refl => exact Relation.ReflTransGen.refl
  | tail hab hstep ih =>
    exact Relation.ReflTransGen.head ((hsym _ _).mp hstep) ih

lemma frag_aux_spec (bd : Fin n → Finset (Fin n))
    (hsym : ∀ p q, q ∈ bd p ↔ p ∈ bd q) :
    ∀ (fuel : ℕ) (pending : Finset (Fin n)), pending.card < fuel →
      (∀ a ∈ pending, ∀ b, Reachable bd a b → b ∈ pending) →
      (∀ F ∈ fragmentate_aux bd fuel pending,
        (∃ j, ∀ x, x ∈ F ↔ Reachable bd j x) ∧ F ⊆ pending) ∧
      (∀ x ∈ pending, ∃ F ∈ fragmentate_aux bd fuel pending, x ∈ F) ∧
      (fragmentate_aux bd fuel pending).Pairwise Disjoint := by
  intro fuel
  induction fuel with
  | zero =>
    intro pending hfuel hclosed
    exact absurd hfuel (Nat.not_lt_zero _)
  | succ f ih =>
    intro pending hfuel hclosed
    by_cases h : pending.Nonempty
    · have hcomp_iff : ∀ x, x ∈ connected_to bd (pick pending h) ∅ ↔
          Reachable bd (pick pending h) x :=
        fun x => connected_to_empty_iff bd (pick pending h) x
      have hjpend : pick pending h ∈ pending := pick_mem pending h
      have hcomp_sub : connected_to bd (pick pending h) ∅ ⊆ pending :=
        fun x hx => hclosed _ hjpend x ((hcomp_iff x).mp hx)
      have hjcomp : pick pending h ∈ connected_to bd (pick pending h) ∅ :=
        (hcomp_iff _).mpr Relation.ReflTransGen.refl
      have hlt : (pending \ connected_to bd (pick pending h) ∅).card <
          pending.card :=
        Finset.card_lt_card (Finset.sdiff_ssubset hcomp_sub ⟨_, hjcomp⟩)
      have hclosed2 : ∀ a ∈ pending \ connected_to bd (pick pending h) ∅,
          ∀ b, Reachable bd a b →
            b ∈ pending \ connected_to bd (pick pending h) ∅ := by
        intro a ha b hab
        rw [Finset.mem_sdiff] at ha ⊢
        refine ⟨hclosed a ha.1 b hab, fun hbcomp => ha.2 ?_⟩
        exact (hcomp_iff a).mpr
          (((hcomp_iff b).mp hbcomp).trans (reachable_symm hsym hab))
      obtain ⟨ih1, ih2, ih3⟩ :=
        ih (pending \ connected_to bd (pick pending h) ∅) (by omega) hclosed2
      simp only [fragmentate_aux]
      rw [dif_pos h]
      refine ⟨?_, ?_, ?_⟩
      · intro F hF
        rcases List.mem_cons.mp hF with h1 | h1
        · subst h1
          exact ⟨⟨pick pending h, hcomp_iff⟩, hcomp_sub⟩
        · obtain ⟨hex, hsub⟩ := ih1 F h1
          exact ⟨hex, hsub.trans Finset.sdiff_subset⟩
      · intro x hx
        by_cases hxc : x ∈ connected_to bd (pick pending h) ∅
        · exact ⟨_, List.mem_cons_self _ _, hxc⟩
        · obtain ⟨F, hF, hxF⟩ := ih2 x (Finset.mem_sdiff.mpr ⟨hx, hxc⟩)
          exact ⟨F, List.mem_cons_of_mem _ hF, hxF⟩
      · refine List.Pairwise.cons ?_ ih3
        intro F hF
        obtain ⟨-, hsub⟩ := ih1 F hF
        exact Finset.disjoint_left.mpr
          (fun x hxc hxF => (Finset.mem_sdiff.mp (hsub hxF)).2 hxc)
    · simp only [fragmentate_aux]
      rw [dif_neg h]
      refine ⟨by simp, ?_, by simp⟩
      intro x hx
      exact absurd ⟨x, hx⟩ h

lemma mem_foldr_union (l : List (Finset (Fin n))) (x : Fin n) :
    x ∈ l.foldr (· ∪ ·) ∅ ↔ ∃ F ∈ l, x ∈ F := by
  induction l with
  | nil => simp
  | cons F l ih => simp [ih]

lemma preserve_loop_spec (bd : Fin n → Finset (Fin n)) :
    ∀ (fuel : ℕ) (inc na : Finset (Fin n)), na.card < fuel →
      (∀ a ∈ inc, bd a ⊆ inc ∪ na) →
      (∀ y ∈ na, y ∉ inc) →
      (∀ a ∈ preserve_loop bd fuel inc na,
        bd a ⊆ preserve_loop bd fuel inc na) ∧
      inc ⊆ preserve_loop bd fuel inc na := by
  intro fuel
  induction fuel with
  | zero =>
    intro inc na hfuel hJ hdis
    exact absurd hfuel (Nat.not_lt_zero _)
  | succ f ih =>
    intro inc na hfuel hJ hdis
    by_cases h : na.Nonempty
    · have hxna : pick na h ∈ na := pick_mem na h
      have hxinc : pick na h ∉ inc := hdis _ hxna
      have hxRx : pick na h ∈ connected_to bd (pick na h) inc :=
        connected_to_self bd _ inc hxinc
      have hnapos : 0 < na.card := Finset.card_pos.mpr h
      have hcard : ((na.erase (pick na h)) \
          (inc ∪ connected_to bd (pick na h) inc)).card < f := by
        have h1 : ((na.erase (pick na h)) \
            (inc ∪ connected_to bd (pick na h) inc)).card ≤
              (na.erase (pick na h)).card :=
          Finset.card_le_card Finset.sdiff_subset
        have h2 : (na.erase (pick na h)).card = na.card - 1 :=
          Finset.card_erase_of_mem hxna
        omega
      have hJ2 : ∀ a ∈ inc ∪ connected_to bd (pick na h) inc,
          bd a ⊆ (inc ∪ connected_to bd (pick na h) inc) ∪
            ((na.erase (pick na h)) \
              (inc ∪ connected_to bd (pick na h) inc)) := by
        intro a ha w hw
        rcases Finset.mem_union.mp ha with hainc | haRx
        · rcases Finset.mem_union.mp (hJ a hainc hw) with h1 | h1
          · exact Finset.mem_union_left _ (Finset.mem_union_left _ h1)
          · by_cases hw2 : w ∈ inc ∪ connected_to bd (pick na h) inc
            · exact Finset.mem_union_left _ hw2
            · have hwx : w ≠ pick na h := by
                intro hwx
                subst hwx
                exact hw2 (Finset.mem_union_right _ hxRx)
              exact Finset.mem_union_right _
                (Finset.mem_sdiff.mpr ⟨Finset.mem_erase.mpr ⟨hwx, h1⟩, hw2⟩)
        · have hra : ReachAv bd inc (pick na h) a :=
            (connected_to_iff bd _ inc hxinc a).mp haRx
          by_cases hwinc : w ∈ inc
          · exact Finset.mem_union_left _ (Finset.mem_union_left _ hwinc)
          · have hrw : ReachAv bd inc (pick na h) w := hra.tail ⟨hw, hwinc⟩
            exact Finset.mem_union_left _ (Finset.mem_union_right _
              ((connected_to_iff bd _ inc hxinc w).mpr hrw))
      have hdis2 : ∀ y ∈ (na.erase (pick na h)) \
          (inc ∪ connected_to bd (pick na h) inc),
            y ∉ inc ∪ connected_to bd (pick na h) inc :=
        fun y hy => (Finset.mem_sdiff.mp hy).2
      have hmain := ih _ _ hcard hJ2 hdis2
      simp only [preserve_loop]
      rw [dif_pos h]
      exact ⟨hmain.1, Finset.subset_union_left.trans hmain.2⟩
    · have hna : na = ∅ := Finset.not_nonempty_iff_eq_empty.mp h
      subst hna
      simp only [preserve_loop]
      rw [dif_neg h]
      refine ⟨?_, Finset.Subset.refl _⟩
      intro a ha
      have h2 := hJ a ha
      simpa using h2

lemma preserve_bonds_closed (bd : Fin n → Finset (Fin n))
    (S : Finset (Fin n)) :
    ∀ a ∈ preserve_bonds bd S, bd a ⊆ preserve_bonds bd S := by
  unfold preserve_bonds
  refine (preserve_loop_spec bd ((S.biUnion bd \ S).card + 1) S
    (S.biUnion bd \ S) (by omega) ?_ ?_).1
  · intro a ha w hw
    by_cases hwS : w ∈ S
    · exact Finset.mem_union_left _ hwS
    · exact Finset.mem_union_right _
        (Finset.mem_sdiff.mpr ⟨Finset.mem_biUnion.mpr ⟨a, ha, hw⟩, hwS⟩)
  · exact fun y hy => (Finset.mem_sdiff.mp hy).2

lemma preserve_bonds_of_closed (bd : Fin n → Finset (Fin n))
    (F : Finset (Fin n)) (hcl : F.biUnion bd \ F = ∅) :
    preserve_bonds bd F = F := by
  unfold preserve_bonds
  rw [hcl]
  simp [preserve_loop]

end SphereFragLemmas

section Claims

/-- C1: for every atom set (one position and one bonding radius per
identifier, radii nonnegative, at least one atom), the adjacency relation
returned by `get_bonds` — computed via the spatial partition built by
`_divide_et_impera` — is identical to the brute-force all-pairs bond
computation over the same atoms and radii, for every positive atoms-per-cell
parameter `m`, provided the overlap margin `offset` exceeds twice the
maximum bonding radius. -/
theorem claim_C1_partition_invariance {n : ℕ} (pos : Fin n → Fin 3 → ℚ)
    (r : Fin n → ℚ) (sba : Bool) (m : ℕ) (offset : ℚ)
    (hn : 0 < n) (hm : 0 < m) (hr : ∀ a, 0 ≤ r a)
    (hoff : ∀ a, 2 * r a < offset) :
    get_bonds pos r sba m offset = brute_force_bonds pos r sba :=
  get_bonds_eq_brute_core hn hm hr hoff

theorem claim_C1_witness :
    0 < 1 ∧ 0 < 1 ∧
    (∀ a : Fin 1, 0 ≤ (fun _ : Fin 1 => (0 : ℚ)) a) ∧
    (∀ a : Fin 1, 2 * (fun _ : Fin 1 => (0 : ℚ)) a < 1) ∧
    get_bonds (fun (_ : Fin 1) (_ : Fin 3) => (0 : ℚ))
        (fun _ : Fin 1 => (0 : ℚ)) false 1 1 =
      brute_force_bonds (fun (_ : Fin 1) (_ : Fin 3) => (0 : ℚ))
        (fun _ : Fin 1 => (0 : ℚ)) false := by
  have h1 : (0 : ℕ) < 1 := by norm_num
  have h3 : ∀ a : Fin 1, 0 ≤ (fun _ : Fin 1 => (0 : ℚ)) a := by
    intro a
    norm_num
  have h4 : ∀ a : Fin 1, 2 * (fun _ : Fin 1 => (0 : ℚ)) a < 1 := by
    intro a
    norm_num
  exact ⟨h1, h1, h3, h4,
    claim_C1_partition_invariance (fun _ _ => 0) (fun _ => 0) false 1 1
      h1 h1 h3 h4⟩

/-- C7: the adjacency relation of `get_bonds` with
`self_bonding_allowed=False` is symmetric, and no atom is bonded to
itself. -/
theorem claim_C7_bond_symmetry {n : ℕ} (pos : Fin n → Fin 3 → ℚ)
    (r : Fin n → ℚ) (m : ℕ) (offset : ℚ) :
    (∀ p q : Fin n, q ∈ get_bonds pos r false m offset p ↔
      p ∈ get_bonds pos r false m offset q) ∧
    (∀ p : Fin n, p ∉ get_bonds pos r false m offset p) := by
  constructor
  · intro p q
    rw [mem_get_bonds_iff, mem_get_bonds_iff]
    constructor <;> rintro ⟨i, j, k, hi, hj, hk, hp, hq, he⟩ <;>
      exact ⟨i, j, k, hi, hj, hk, hq, hp, jit_bond_entry_symm.mp he⟩
  · intro p hp
    rw [mem_get_bonds_iff] at hp
    obtain ⟨i, j, k, -, -, -, -, -, he⟩ := hp
    rcases he.2 with h | h
    · exact Bool.false_ne_true h
    · exact h rfl

/-- C9: a pair of distinct atoms whose squared distance equals the squared
sum of their bonding radii passes the inclusive bond test
(`(B - D) >= 0` at `B = D`), so under the usual partition parameters the
boundary pair appears in each other's neighbour set of the adjacency
relation returned by `get_bonds`. -/
theorem claim_C9_boundary_inclusive {n : ℕ} (pos : Fin n → Fin 3 → ℚ)
    (r : Fin n → ℚ) (sba : Bool) (m : ℕ) (offset : ℚ) (p q : Fin n)
    (hpq : p ≠ q) (hb : dist2 pos p q = (r p + r q) ^ 2) (hm : 0 < m)
    (hr : ∀ a, 0 ≤ r a) (hoff : ∀ a, 2 * r a < offset) :
    q ∈ get_bonds pos r sba m offset p ∧
      p ∈ get_bonds pos r sba m offset q := by
  have hn : 0 < n := Nat.pos_of_ne_zero (fun hz => by subst hz; exact p.elim0)
  rw [get_bonds_eq_brute_core hn hm hr hoff]
  unfold brute_force_bonds
  constructor
  · rw [Finset.mem_filter]
    refine ⟨Finset.mem_univ _, ⟨?_, Or.inr hpq⟩⟩
    rw [hb]
    simp
  · rw [Finset.mem_filter]
    refine ⟨Finset.mem_univ _, ⟨?_, Or.inr hpq.symm⟩⟩
    rw [dist2_comm, hb]
    ring_nf
    simp [add_comm]

theorem claim_C9_witness :
    ((0 : Fin 2) ≠ 1) ∧
    dist2 (fun (p : Fin 2) (h : Fin 3) =>
        if p.val = 1 ∧ h.val = 0 then (1 : ℚ) else 0) 0 1 =
      ((fun _ : Fin 2 => (1 / 2 : ℚ)) 0 +
        (fun _ : Fin 2 => (1 / 2 : ℚ)) 1) ^ 2 ∧
    0 < 1 ∧ (∀ a : Fin 2, 0 ≤ (fun _ : Fin 2 => (1 / 2 : ℚ)) a) ∧
    (∀ a : Fin 2, 2 * (fun _ : Fin 2 => (1 / 2 : ℚ)) a < 2) ∧
    ((1 : Fin 2) ∈ get_bonds (fun (p : Fin 2) (h : Fin 3) =>
        if p.val = 1 ∧ h.val = 0 then (1 : ℚ) else 0)
        (fun _ : Fin 2 => (1 / 2 : ℚ)) false 1 2 0 ∧
      (0 : Fin 2) ∈ get_bonds (fun (p : Fin 2) (h : Fin 3) =>
        if p.val = 1 ∧ h.val = 0 then (1 : ℚ) else 0)
        (fun _ : Fin 2 => (1 / 2 : ℚ)) false 1 2 1) := by
  have hpq : (0 : Fin 2) ≠ 1 := by decide
  have hb : dist2 (fun (p : Fin 2) (h : Fin 3) =>
      if p.val = 1 ∧ h.val = 0 then (1 : ℚ) else 0) 0 1 =
      ((fun _ : Fin 2 => (1 / 2 : ℚ)) 0 +
        (fun _ : Fin 2 => (1 / 2 : ℚ)) 1) ^ 2 := by
    simp only [dist2, Fin.sum_univ_three]
    norm_num
  have hm : (0 : ℕ) < 1 := by norm_num
  have hr : ∀ a : Fin 2, 0 ≤ (fun _ : Fin 2 => (1 / 2 : ℚ)) a := by
    intro a
    norm_num
  have hoff : ∀ a : Fin 2, 2 * (fun _ : Fin 2 => (1 / 2 : ℚ)) a < 2 := by
    intro a
    norm_num
  exact ⟨hpq, hb, hm, hr, hoff,
    claim_C9_boundary_inclusive
      (fun p h => if p.val = 1 ∧ h.val = 0 then (1 : ℚ) else 0)
      (fun _ => (1 / 2 : ℚ)) false 1 2 0 1 hpq hb hm hr hoff⟩

/-- C10: a call to the `get_bonds` method leaves the atom records unchanged —
the identifier index (temporarily renumbered but restored), the element
symbols and the positions all equal their pre-call values; only the
metadata cache entry holding the bond dictionary may differ. -/
theorem claim_C10_frame_unchanged {n : ℕ} {Elem : Type}
    (radius_of : Elem → ℚ) (modified : Fin n → Option ℚ) (sba : Bool)
    (m : ℕ) (offset : ℚ) (use_lookup set_lookup : Bool)
    (mol : CartMol n Elem) :
    ((get_bonds_with_metadata radius_of modified sba m offset use_lookup
        set_lookup mol).2).index = mol.index ∧
    ((get_bonds_with_metadata radius_of modified sba m offset use_lookup
        set_lookup mol).2).atom = mol.atom ∧
    ((get_bonds_with_metadata radius_of modified sba m offset use_lookup
        set_lookup mol).2).pos = mol.pos := by
  obtain ⟨idx, atm, ps, cache⟩ := mol
  cases use_lookup <;> cases set_lookup <;> cases cache <;>
    simp [get_bonds_with_metadata, complete_calculation]

/-- C2: with the dummy-manipulation flag disabled, a failing safe write via
`_Safe_Loc.__setitem__` (the coordinate resolver raises the degeneracy
error on the written copy) leaves the caller-visible molecule exactly equal
to the pre-write state, and the raised error carries the partially-applied
representation as its `zmat_after_assignment` payload. -/
theorem claim_C2_safe_write_failure {R C Vl E Cart : Type}
    [DecidableEq R] [DecidableEq C]
    (give_cartesian : (R → C → Vl) → Except E Cart)
    (insert_dummy : (R → C → Vl) → E → R → C → Vl)
    (remove_dummies : (R → C → Vl) → R → C → Vl)
    (mol : ZmatState R C Vl) (kv : LocAssign R C Vl) (e : E)
    (hflag : mol.dummy_manipulation_allowed = false)
    (herr : give_cartesian (loc_write mol.frame kv) = Except.error e) :
    safe_loc_setitem give_cartesian insert_dummy remove_dummies mol kv =
      (mol, some (e, loc_write mol.frame kv)) := by
  unfold safe_loc_setitem
  rw [hflag]
  simp [herr]

theorem claim_C2_witness :
    ((⟨fun _ _ => (0 : ℚ), false⟩ :
        ZmatState (Fin 1) (Fin 1) ℚ).dummy_manipulation_allowed = false) ∧
    ((fun _ : Fin 1 → Fin 1 → ℚ => (Except.error () : Except Unit Unit))
      (loc_write (fun _ _ => (0 : ℚ)) (LocAssign.cell 0 0 1)) =
        Except.error ()) ∧
    safe_loc_setitem (fun _ : Fin 1 → Fin 1 → ℚ =>
        (Except.error () : Except Unit Unit))
      (fun f _ => f) (fun f => f)
      (⟨fun _ _ => (0 : ℚ), false⟩ : ZmatState (Fin 1) (Fin 1) ℚ)
      (LocAssign.cell 0 0 1) =
      (⟨fun _ _ => (0 : ℚ), false⟩,
        some ((), loc_write (fun _ _ => (0 : ℚ)) (LocAssign.cell 0 0 1))) :=
  ⟨rfl, rfl,
    claim_C2_safe_write_failure (fun _ => Except.error ()) (fun f _ => f)
      (fun f => f) ⟨fun _ _ => 0, false⟩ (LocAssign.cell 0 0 1) () rfl rfl⟩

end Claims

section ClaimsDihedral

/-- C3 (amended): for a 4-atom chain whose two normalized plane normals are
orthogonal (a 90-degree angle between the planes), `dihedral_degrees`
reports 270 degrees exactly when the scalar triple product of the `b - a`
direction with the cross product of the two plane normals is positive (the
claim's negative-product case is reported as 90 degrees instead). -/
theorem claim_C3_dihedral_sign (i b a d : Vec3)
    (h90 : dot3 (dihedral_n1 i b a) (dihedral_n2 b a d) = 0)
    (hpos : 0 < dot3 (a - b)
      (cross3 (dihedral_n1 i b a) (dihedral_n2 b a d))) :
    dihedral_degrees i b a d = 270 := by
  unfold dihedral_degrees
  rw [if_pos hpos, h90]
  have hclip : clip1 0 = 0 := by
    unfold clip1
    norm_num
  rw [hclip, Real.arccos_zero]
  unfold degrees
  have h := Real.pi_ne_zero
  field_simp
  ring

theorem claim_C3_counterexample :
    dot3 (dihedral_n1 ((0 : ℝ), 1, 0) (0, 0, 0) (1, 0, 0))
        (dihedral_n2 (0, 0, 0) (1, 0, 0) (1, 0, -1)) = 0 ∧
    dot3 (((1 : ℝ), 0, 0) - ((0 : ℝ), 0, 0))
        (cross3 (dihedral_n1 ((0 : ℝ), 1, 0) (0, 0, 0) (1, 0, 0))
          (dihedral_n2 (0, 0, 0) (1, 0, 0) (1, 0, -1))) < 0 ∧
    dihedral_degrees ((0 : ℝ), 1, 0) (0, 0, 0) (1, 0, 0) (1, 0, -1) = 90 ∧
    dihedral_degrees ((0 : ℝ), 1, 0) (0, 0, 0) (1, 0, 0) (1, 0, -1) ≠ 270 := by
  have hn1 : dihedral_n1 ((0 : ℝ), 1, 0) (0, 0, 0) (1, 0, 0) = (0, 0, 1) := by
    unfold dihedral_n1 normalize3 cross3 norm3 dot3
    norm_num [Prod.mk_sub_mk]
  have hn2 : dihedral_n2 ((0 : ℝ), 0, 0) (1, 0, 0) (1, 0, -1) = (0, 1, 0) := by
    unfold dihedral_n2 normalize3 cross3 norm3 dot3
    norm_num [Prod.mk_sub_mk]
  have hd : dot3 ((0 : ℝ), 0, 1) (0, 1, 0) = 0 := by norm_num [dot3]
  have h90 : dihedral_degrees ((0 : ℝ), 1, 0) (0, 0, 0) (1, 0, 0)
      (1, 0, -1) = 90 := by
    unfold dihedral_degrees
    rw [hn1, hn2, hd]
    rw [if_neg (by norm_num [dot3, cross3, Prod.mk_sub_mk])]
    have hclip : clip1 0 = 0 := by
      unfold clip1
      norm_num
    rw [hclip, Real.arccos_zero]
    unfold degrees
    have h := Real.pi_ne_zero
    field_simp
    ring
  refine ⟨by rw [hn1, hn2, hd], ?_, h90, by rw [h90]; norm_num⟩
  rw [hn1, hn2]
  norm_num [dot3, cross3, Prod.mk_sub_mk]

theorem claim_C3_witness :
    dot3 (dihedral_n1 ((0 : ℝ), 1, 0) (0, 0, 0) (1, 0, 0))
        (dihedral_n2 (0, 0, 0) (1, 0, 0) (1, 0, 1)) = 0 ∧
    0 < dot3 (((1 : ℝ), 0, 0) - ((0 : ℝ), 0, 0))
        (cross3 (dihedral_n1 ((0 : ℝ), 1, 0) (0, 0, 0) (1, 0, 0))
          (dihedral_n2 (0, 0, 0) (1, 0, 0) (1, 0, 1))) ∧
    dihedral_degrees ((0 : ℝ), 1, 0) (0, 0, 0) (1, 0, 0) (1, 0, 1) = 270 := by
  have hn1 : dihedral_n1 ((0 : ℝ), 1, 0) (0, 0, 0) (1, 0, 0) = (0, 0, 1) := by
    unfold dihedral_n1 normalize3 cross3 norm3 dot3
    norm_num [Prod.mk_sub_mk]
  have hn2 : dihedral_n2 ((0 : ℝ), 0, 0) (1, 0, 0) (1, 0, 1) = (0, -1, 0) := by
    unfold dihedral_n2 normalize3 cross3 norm3 dot3
    norm_num [Prod.mk_sub_mk]
  have h1 : dot3 (dihedral_n1 ((0 : ℝ), 1, 0) (0, 0, 0) (1, 0, 0))
      (dihedral_n2 (0, 0, 0) (1, 0, 0) (1, 0, 1)) = 0 := by
    rw [hn1, hn2]
    norm_num [dot3]
  have h2 : 0 < dot3 (((1 : ℝ), 0, 0) - ((0 : ℝ), 0, 0))
      (cross3 (dihedral_n1 ((0 : ℝ), 1, 0) (0, 0, 0) (1, 0, 0))
        (dihedral_n2 (0, 0, 0) (1, 0, 0) (1, 0, 1))) := by
    rw [hn1, hn2]
    norm_num [dot3, cross3, Prod.mk_sub_mk]
  exact ⟨h1, h2, claim_C3_dihedral_sign _ _ _ _ h1 h2⟩

end ClaimsDihedral

section ClaimsTraversal

/-- C4: evaluating the coordination-sphere code on the triangle molecule
(atoms 0, 1, 2 pairwise bonded).  `give_coordination_sphere(0, 2)` returns
`{1, 2}` although the second coordination sphere in the claim's (and the
method docstring's) sense is empty, and `give_coordination_sphere(0, 0)`
returns the first sphere `{1, 2}` instead of `{0}`. -/
theorem claim_C4_triangle_eval :
    give_coordination_sphere
        (fun p : Fin 3 => if p.val = 0 then ({1, 2} : Finset (Fin 3))
          else if p.val = 1 then {0, 2} else {0, 1}) 0 2 = {1, 2} ∧
    (spec_coordination_sphere
        (fun p : Fin 3 => if p.val = 0 then ({1, 2} : Finset (Fin 3))
          else if p.val = 1 then {0, 2} else {0, 1}) 0 2).1 = ∅ ∧
    give_coordination_sphere
        (fun p : Fin 3 => if p.val = 0 then ({1, 2} : Finset (Fin 3))
          else if p.val = 1 then {0, 2} else {0, 1}) 0 0 = {1, 2} ∧
    (spec_coordination_sphere
        (fun p : Fin 3 => if p.val = 0 then ({1, 2} : Finset (Fin 3))
          else if p.val = 1 then {0, 2} else {0, 1}) 0 0).1 = {0} := by
  refine ⟨?_, ?_, ?_, ?_⟩ <;> decide

/-- C6: for every molecule whose bond dictionary is symmetric, the index
sets produced by `fragmentate(give_only_index=True)` are pairwise disjoint,
their union is the full atom index set, every atom of a fragment is
connected to every other atom of that fragment along the bond graph, and no
bond leaves a fragment. -/
theorem claim_C6_fragment_partition {n : ℕ} (bd : Fin n → Finset (Fin n))
    (hsym : ∀ p q, q ∈ bd p ↔ p ∈ bd q) :
    (fragmentate bd).Pairwise Disjoint ∧
    (fragmentate bd).foldr (· ∪ ·) ∅ = Finset.univ ∧
    (∀ F ∈ fragmentate bd, ∀ a ∈ F, ∀ b ∈ F, Reachable bd a b) ∧
    (∀ F ∈ fragmentate bd, ∀ a ∈ F, bd a ⊆ F) := by
  have hcard : (Finset.univ : Finset (Fin n)).card < n + 1 := by
    simp [Fintype.card_fin]
  obtain ⟨h1, h2, h3⟩ := frag_aux_spec bd hsym (n + 1) Finset.univ hcard
    (fun a _ b _ => Finset.mem_univ b)
  unfold fragmentate
  refine ⟨h3, ?_, ?_, ?_⟩
  · ext x
    rw [mem_foldr_union]
    simp only [Finset.mem_univ, iff_true]
    exact h2 x (Finset.mem_univ x)
  · intro F hF a ha b hb
    obtain ⟨⟨j, hj⟩, -⟩ := h1 F hF
    exact (reachable_symm hsym ((hj a).mp ha)).trans ((hj b).mp hb)
  · intro F hF a ha w hw
    obtain ⟨⟨j, hj⟩, -⟩ := h1 F hF
    exact (hj w).mpr (Relation.ReflTransGen.tail ((hj a).mp ha) hw)

theorem claim_C6_witness :
    (∀ p q : Fin 3,
      q ∈ (fun x : Fin 3 => if x.val = 0 then ({1} : Finset (Fin 3))
        else if x.val = 1 then {0} else ∅) p ↔
      p ∈ (fun x : Fin 3 => if x.val = 0 then ({1} : Finset (Fin 3))
        else if x.val = 1 then {0} else ∅) q) ∧
    ((fragmentate (fun x : Fin 3 => if x.val = 0 then ({1} : Finset (Fin 3))
        else if x.val = 1 then {0} else ∅)).Pairwise Disjoint ∧
    (fragmentate (fun x : Fin 3 => if x.val = 0 then ({1} : Finset (Fin 3))
        else if x.val = 1 then {0} else ∅)).foldr (· ∪ ·) ∅ =
        Finset.univ ∧
    (∀ F ∈ fragmentate (fun x : Fin 3 =>
        if x.val = 0 then ({1} : Finset (Fin 3))
        else if x.val = 1 then {0} else ∅), ∀ a ∈ F, ∀ b ∈ F,
      Reachable (fun x : Fin 3 => if x.val = 0 then ({1} : Finset (Fin 3))
        else if x.val = 1 then {0} else ∅) a b) ∧
    (∀ F ∈ fragmentate (fun x : Fin 3 =>
        if x.val = 0 then ({1} : Finset (Fin 3))
        else if x.val = 1 then {0} else ∅), ∀ a ∈ F,
      (fun x : Fin 3 => if x.val = 0 then ({1} : Finset (Fin 3))
        else if x.val = 1 then {0} else ∅) a ⊆ F)) :=
  ⟨by decide,
    claim_C6_fragment_partition
      (fun x : Fin 3 => if x.val = 0 then ({1} : Finset (Fin 3))
        else if x.val = 1 then {0} else ∅) (by decide)⟩

/-- C8: for every molecule with a symmetric bond dictionary and every atom
subset, the output of `_preserve_bonds` is bond-closed — no bond has exactly
one endpoint inside it — and therefore applying `_preserve_bonds` a second
time to its own output returns the same atom set (idempotence). -/
theorem claim_C8_preserve_bonds {n : ℕ} (bd : Fin n → Finset (Fin n))
    (S : Finset (Fin n)) (hsym : ∀ p q, q ∈ bd p ↔ p ∈ bd q) :
    (∀ a b : Fin n, b ∈ bd a →
      (a ∈ preserve_bonds bd S ↔ b ∈ preserve_bonds bd S)) ∧
    preserve_bonds bd (preserve_bonds bd S) = preserve_bonds bd S := by
  have hcl := preserve_bonds_closed bd S
  constructor
  · intro a b hab
    constructor
    · intro ha
      exact hcl a ha hab
    · intro hb
      exact hcl b hb ((hsym a b).mp hab)
  · apply preserve_bonds_of_closed
    rw [Finset.sdiff_eq_empty_iff_subset]
    exact Finset.biUnion_subset.mpr hcl

theorem claim_C8_witness :
    (∀ p q : Fin 2,
      q ∈ (fun x : Fin 2 => if x.val = 0 then ({1} : Finset (Fin 2))
        else {0}) p ↔
      p ∈ (fun x : Fin 2 => if x.val = 0 then ({1} : Finset (Fin 2))
        else {0}) q) ∧
    ((∀ a b : Fin 2,
      b ∈ (fun x : Fin 2 => if x.val = 0 then ({1} : Finset (Fin 2))
        else {0}) a →
      (a ∈ preserve_bonds (fun x : Fin 2 =>
          if x.val = 0 then ({1} : Finset (Fin 2)) else {0}) {0} ↔
        b ∈ preserve_bonds (fun x : Fin 2 =>
          if x.val = 0 then ({1} : Finset (Fin 2)) else {0}) {0})) ∧
    preserve_bonds (fun x : Fin 2 =>
        if x.val = 0 then ({1} : Finset (Fin 2)) else {0})
      (preserve_bonds (fun x : Fin 2 =>
        if x.val = 0 then ({1} : Finset (Fin 2)) else {0}) {0}) =
      preserve_bonds (fun x : Fin 2 =>
        if x.val = 0 then ({1} : Finset (Fin 2)) else {0}) {0}) :=
  ⟨by decide,
    claim_C8_preserve_bonds
      (fun x : Fin 2 => if x.val = 0 then ({1} : Finset (Fin 2)) else {0})
      {0} (by decide)⟩

end ClaimsTraversal

end Chemcoord
